import Mathlib

/-!
Verification of the data-cleaning procedure of the solar-irradiance EDA
notebooks (the `DatasetCleaner` component).

The cleaning cell of each notebook performs, on a pandas DataFrame `df`:
  1. `z_scores = df[key_columns].apply(zscore, nan_policy='omit')`;
     `outliers = (z_scores.abs() > 3).any(axis=1)` — outlier report only.
  2. `for col in key_columns: df[col] = df[col].fillna(df[col].median())`.
  3. `df = df.drop(columns=['Comments'], errors='ignore')`.
  4. `df[key_columns] = df[key_columns].clip(lower=0)`.
  5. `df.to_csv(..., index=False)`.

We embed the table as an association list of named columns; a cell is
`Option ℚ` (`none` models NaN / a missing entry).  Column access
`df[key_columns]` raises `KeyError` on a missing column, which we model
with `Except String`.  Scipy `zscore` uses the population standard
deviation (ddof = 0) and with `nan_policy='omit'` computes mean and std
over the non-missing entries, giving NaN (never flagged) on missing
entries.  Since the standard deviation is a square root, the test
`|x − μ| / σ > 3` is embedded by the equivalent rational comparison
`(x − μ)² > 9 σ²` (for σ ≥ 0; when σ = 0 the z-score is NaN and the scipy
comparison is false, and our comparison `0 > 0` is false as well).
-/

/-- One table cell: `none` is a missing entry (NaN). -/
abbrev Cell : Type := Option ℚ

/-- One column of the table. -/
abbrev Col : Type := List Cell

/-- A table: named columns, in order. -/
abbrev Table : Type := List (String × Col)

/-- The non-missing values of a column, in order. -/
def somes (c : Col) : List ℚ := c.filterMap id

/-- Column lookup by name, `df[name]`: first column with that name. -/
def getCol (t : Table) (name : String) : Option Col :=
  (t.find? (fun p => p.1 == name)).map Prod.snd

/-- The column names of the table, in order. -/
def colNames (t : Table) : List String := t.map Prod.fst

/-- Rewrite every column in place, keeping names and order. -/
def mapCols (f : String → Col → Col) (t : Table) : Table :=
  t.map (fun p => (p.1, f p.1 p.2))

/-- Step 3 of the cleaning cell: `df.drop(columns=['Comments'], errors='ignore')`. -/
def dropComments (t : Table) : Table :=
  t.filter (fun p => p.1 != "Comments")

/-- Clipping `clip(lower=0)` on one cell: missing entries stay missing,
values are floored at zero. -/
def clipCell (cell : Cell) : Cell := cell.map (fun x => max x 0)

/-- Step 4 of the cleaning cell: clip every key column at zero. -/
def clipKeys (t : Table) (keys : List String) : Table :=
  mapCols (fun n c => if n ∈ keys then c.map clipCell else c) t

/-- Insert into a sorted list of rationals, keeping it sorted. -/
def insertSorted (x : ℚ) : List ℚ → List ℚ
  | [] => [x]
  | y :: ys => if x ≤ y then x :: y :: ys else y :: insertSorted x ys

/-- Sort a list of rationals ascending (insertion sort). -/
def sortList (l : List ℚ) : List ℚ := l.foldr insertSorted []

/-- Pandas `Series.median()` (skipna): sort, take the middle element, or the
mean of the two middle elements; the median of no values is NaN (`none`). -/
def median (l : List ℚ) : Option ℚ :=
  if (sortList l).length = 0 then none
  else if (sortList l).length % 2 = 1 then (sortList l)[(sortList l).length / 2]?
  else
    match (sortList l)[(sortList l).length / 2 - 1]?, (sortList l)[(sortList l).length / 2]? with
    | some a, some b => some ((a + b) / 2)
    | _, _ => none

/-- Imputation `df[col].fillna(df[col].median())` on one column: every missing entry is
replaced by the median of the non-missing entries; when that median is
itself NaN (all entries missing) `fillna` changes nothing. -/
def imputeCol (c : Col) : Col :=
  match median (somes c) with
  | none => c
  | some m => c.map (fun cell => some (cell.getD m))

/-- Step 2 of the cleaning cell: the `for col in key_columns` loop, each
column imputed from its own current state, in order. -/
def imputeKeys (t : Table) (keys : List String) : Table :=
  keys.foldl (fun acc k => mapCols (fun n c => if n == k then imputeCol c else c) acc) t

/-- Access `df[keys]`: the key columns, or a `KeyError` on the first absent one. -/
def getCols (t : Table) : List String → Except String (List Col)
  | [] => .ok []
  | k :: ks =>
    match getCol t k with
    | none => .error ("KeyError: " ++ k)
    | some c =>
      match getCols t ks with
      | .error e => .error e
      | .ok cs => .ok (c :: cs)

/-- Mean of the non-missing entries of a column (division by zero in ℚ is 0;
it is only ever used beneath a non-missing entry of the same column). -/
def colMean (c : Col) : ℚ := (somes c).sum / (somes c).length

/-- Population variance (ddof = 0, as in `scipy.stats.zscore`) of the
non-missing entries of a column. -/
def colVar (c : Col) : ℚ :=
  ((somes c).map (fun x => (x - colMean c) ^ 2)).sum / (somes c).length

/-- Whether one cell is flagged by the `|zscore| > 3` test against its
column: missing entries have NaN z-score and are never flagged; a value x
is flagged when `|x − μ| / σ > 3`, embedded as `(x − μ)² > 9 σ²`. -/
def cellOutlier (c : Col) : Cell → Bool
  | none => false
  | some x => decide ((x - colMean c) ^ 2 > 9 * colVar c)

/-- The outlier report: `(z_scores.abs() > 3).any(axis=1)`, as the list of
flagged row indices — a row is flagged when some key column flags it. -/
def detect_outliers (t : Table) (keys : List String) : Except String (List ℕ) :=
  match getCols t keys with
  | .error e => .error e
  | .ok cols =>
    let n := (cols.head?.map List.length).getD 0
    .ok ((List.range n).filter (fun i => cols.any (fun c => cellOutlier c (c.getD i none))))

/-- The table produced by steps 2–4 of the cleaning cell. -/
def cleanBody (t : Table) (keys : List String) : Table :=
  clipKeys (dropComments (imputeKeys t keys)) keys

/-- The whole cleaning cell: the z-score pass reads `df[keys]` (KeyError on
a missing key column, before any mutation), then impute, drop `Comments`,
and clip — the clip step reads `df[keys]` again. -/
def clean (t : Table) (keys : List String) : Except String Table :=
  match detect_outliers t keys with
  | .error e => .error e
  | .ok _ =>
    match getCols (dropComments (imputeKeys t keys)) keys with
    | .error e => .error e
    | .ok _ => .ok (cleanBody t keys)

/-- The number of rows of the table (the length of its first column). -/
def nrows (t : Table) : ℕ := (t.head?.map (fun p => p.2.length)).getD 0

/-- Row `i` of the table: one cell per column, in column order. -/
def rowAt (t : Table) (i : ℕ) : List Cell :=
  t.map (fun p => p.2.getD i none)

/-- Export `df.to_csv(..., index=False)`: the header row (the column names) and one
record per row, with no row-index column prepended. -/
def exportCsv (t : Table) : List String × List (List Cell) :=
  (colNames t, (List.range (nrows t)).map (rowAt t))

/-- The key columns of the notebooks:
`['GHI', 'DNI', 'DHI', 'ModA', 'ModB', 'WS', 'WSgust']`. -/
def keyColumns : List String :=
  ["GHI", "DNI", "DHI", "ModA", "ModB", "WS", "WSgust"]

/-- The per-column effect of a full cleaning run on a key column: impute
with the median, then clip at zero (the identity on non-key columns). -/
def cleanColFun (keys : List String) : String → Col → Col :=
  fun n c => if n ∈ keys then (imputeCol c).map clipCell else c

/-- Whether a named column is present and has at least one non-missing
entry (decidable precondition used by several statements). -/
def colHasValue (t : Table) (k : String) : Bool :=
  match getCol t k with
  | none => false
  | some c => !(somes c).isEmpty

/-- A sample input table: all seven key columns, a `Comments` column, a
timestamp and an extra measurement column; some missing entries and one
negative value. -/
def sampleT : Table :=
  [("Timestamp", [some 1, some 2, some 3]),
   ("GHI", [some 5, none, none]),
   ("DNI", [some 1, some 2, some 3]),
   ("DHI", [none, some 2, none]),
   ("ModA", [some 7, some 7, some 7]),
   ("ModB", [none, some 4, none]),
   ("WS", [some 2, some 3, some 4]),
   ("WSgust", [some (-1), some 0, some 6]),
   ("Comments", [none, none, none]),
   ("RH", [some 10, some 20, some 30])]

/-- The table `clean` produces from `sampleT`. -/
def sampleTClean : Table :=
  [("Timestamp", [some 1, some 2, some 3]),
   ("GHI", [some 5, some 5, some 5]),
   ("DNI", [some 1, some 2, some 3]),
   ("DHI", [some 2, some 2, some 2]),
   ("ModA", [some 7, some 7, some 7]),
   ("ModB", [some 4, some 4, some 4]),
   ("WS", [some 2, some 3, some 4]),
   ("WSgust", [some 0, some 0, some 6]),
   ("RH", [some 10, some 20, some 30])]

/-- The key columns of `sampleT`, in key order (`df[key_columns]`). -/
def sampleTCols : List Col :=
  [[some 5, none, none],
   [some 1, some 2, some 3],
   [none, some 2, none],
   [some 7, some 7, some 7],
   [none, some 4, none],
   [some 2, some 3, some 4],
   [some (-1), some 0, some 6]]

/-- A one-column table holding the specification example `[1, 2, missing, 100]`. -/
def exampleT : Table := [("GHI", [some 1, some 2, none, some 100])]

/-- A table whose `GHI` key column is entirely missing. -/
def allMissingT : Table :=
  [("GHI", [none, none]),
   ("DNI", [some 1, some 2]),
   ("DHI", [some 0, some 3]),
   ("ModA", [some 1, some 1]),
   ("ModB", [some 2, some 5]),
   ("WS", [some 1, some 4]),
   ("WSgust", [some 2, some 2])]

/-- A table missing the `GHI` key column. -/
def missingKeyT : Table :=
  [("Timestamp", [some 1]), ("DNI", [some 1])]

/-! ### Basic lemmas about column access and the table combinators -/

theorem getCol_cons (p : String × Col) (t : Table) (name : String) :
    getCol (p :: t) name = if p.1 = name then some p.2 else getCol t name := by
  by_cases h : p.1 = name
  · rw [getCol, List.find?_cons_of_pos _ (by simp [h]), if_pos h]
    rfl
  · rw [getCol, List.find?_cons_of_neg _ (by simp [h]), if_neg h]
    rfl

theorem mapCols_cons (f : String → Col → Col) (p : String × Col) (t : Table) :
    mapCols f (p :: t) = (p.1, f p.1 p.2) :: mapCols f t := rfl

theorem dropComments_cons (p : String × Col) (t : Table) :
    dropComments (p :: t) =
      if p.1 = "Comments" then dropComments t else p :: dropComments t := by
  by_cases h : p.1 = "Comments" <;> simp [dropComments, List.filter_cons, h]

theorem getCol_mapCols (f : String → Col → Col) (t : Table) (name : String) :
    getCol (mapCols f t) name = (getCol t name).map (f name) := by
  induction t with
  | nil => rfl
  | cons p t ih =>
    rw [mapCols_cons, getCol_cons, getCol_cons]
    by_cases h : p.1 = name
    · simp [h]
    · simp [h, ih]

theorem getCol_dropComments (t : Table) (name : String) (h : name ≠ "Comments") :
    getCol (dropComments t) name = getCol t name := by
  induction t with
  | nil => rfl
  | cons p t ih =>
    rw [dropComments_cons]
    by_cases hp : p.1 = "Comments"
    · have hn : ¬(p.1 = name) := fun he => h (he ▸ hp)
      rw [if_pos hp, getCol_cons, if_neg hn, ih]
    · rw [if_neg hp, getCol_cons, getCol_cons, ih]

theorem getCol_dropComments_self (t : Table) :
    getCol (dropComments t) "Comments" = none := by
  induction t with
  | nil => rfl
  | cons p t ih =>
    rw [dropComments_cons]
    by_cases hp : p.1 = "Comments"
    · rw [if_pos hp, ih]
    · rw [if_neg hp, getCol_cons, if_neg hp, ih]

theorem colNames_mapCols (f : String → Col → Col) (t : Table) :
    colNames (mapCols f t) = colNames t := by
  induction t with
  | nil => rfl
  | cons p t ih =>
    rw [mapCols_cons]
    simpa [colNames] using ih

theorem colNames_cons (p : String × Col) (t : Table) :
    colNames (p :: t) = p.1 :: colNames t := rfl

theorem colNames_dropComments (t : Table) :
    colNames (dropComments t) = (colNames t).filter (fun n => n != "Comments") := by
  induction t with
  | nil => rfl
  | cons p t ih =>
    rw [dropComments_cons, colNames_cons, List.filter_cons]
    by_cases hp : p.1 = "Comments"
    · simpa [hp] using ih
    · simpa [hp, colNames_cons] using ih

theorem getCol_mem (t : Table) (name : String) (c : Col) (h : getCol t name = some c) :
    (name, c) ∈ t := by
  induction t with
  | nil => simp [getCol] at h
  | cons p t ih =>
    rw [getCol_cons] at h
    by_cases hp : p.1 = name
    · rw [if_pos hp] at h
      simp only [Option.some.injEq] at h
      cases p with
      | mk a b =>
        simp only at hp h
        subst hp
        subst h
        exact List.mem_cons_self _ _
    · rw [if_neg hp] at h
      exact List.mem_cons_of_mem _ (ih h)

theorem mapCols_mapCols (f g : String → Col → Col) (t : Table) :
    mapCols f (mapCols g t) = mapCols (fun n c => f n (g n c)) t := by
  induction t with
  | nil => rfl
  | cons p t ih => simpa [mapCols_cons] using ih

theorem mapCols_congr (f g : String → Col → Col) (t : Table)
    (h : ∀ n c, f n c = g n c) : mapCols f t = mapCols g t := by
  induction t with
  | nil => rfl
  | cons p t ih => simp only [mapCols_cons, ih, h]

theorem dropComments_mapCols (f : String → Col → Col) (t : Table) :
    dropComments (mapCols f t) = mapCols f (dropComments t) := by
  induction t with
  | nil => rfl
  | cons p t ih =>
    rw [mapCols_cons, dropComments_cons, dropComments_cons]
    by_cases hp : p.1 = "Comments"
    · simp [hp, ih]
    · simp [hp, ih, mapCols_cons]

theorem dropComments_dropComments (t : Table) :
    dropComments (dropComments t) = dropComments t := by
  induction t with
  | nil => rfl
  | cons p t ih =>
    rw [dropComments_cons]
    by_cases hp : p.1 = "Comments"
    · rw [if_pos hp, ih]
    · rw [if_neg hp, dropComments_cons, if_neg hp, ih]

/-! ### Lemmas about `getCols` (the `df[key_columns]` access) -/

theorem getCols_ok_forall (t : Table) (keys : List String) (cols : List Col)
    (h : getCols t keys = .ok cols) : ∀ k ∈ keys, ∃ c, getCol t k = some c := by
  induction keys generalizing cols with
  | nil => intro k hk; simp at hk
  | cons k' ks ih =>
    intro k hk
    unfold getCols at h
    rcases hc : getCol t k' with _ | c
    · rw [hc] at h; simp at h
    · rw [hc] at h
      rcases hg : getCols t ks with e | cs
      · rw [hg] at h; simp at h
      · rcases List.mem_cons.mp hk with h1 | h1
        · exact ⟨c, h1 ▸ hc⟩
        · exact ih cs hg k h1

theorem getCols_ok_of_forall (t : Table) (keys : List String)
    (h : ∀ k ∈ keys, (getCol t k).isSome) : ∃ cols, getCols t keys = .ok cols := by
  induction keys with
  | nil => exact ⟨[], rfl⟩
  | cons k' ks ih =>
    have h1 : (getCol t k').isSome := h k' (by simp)
    rcases hc : getCol t k' with _ | c
    · rw [hc] at h1; simp at h1
    · obtain ⟨cols, hcols⟩ := ih (fun k hk => h k (by simp [hk]))
      exact ⟨c :: cols, by simp [getCols, hc, hcols]⟩

theorem mem_of_getCols (t : Table) (keys : List String) (cols : List Col)
    (h : getCols t keys = .ok cols) : ∀ c ∈ cols, ∃ k ∈ keys, getCol t k = some c := by
  induction keys generalizing cols with
  | nil =>
    intro c hc
    unfold getCols at h
    simp only [Except.ok.injEq] at h
    subst h
    simp at hc
  | cons k' ks ih =>
    intro c hc
    unfold getCols at h
    rcases h1 : getCol t k' with _ | c'
    · rw [h1] at h; simp at h
    · rw [h1] at h
      rcases hg : getCols t ks with e | cs
      · rw [hg] at h; simp at h
      · rw [hg] at h
        simp only [Except.ok.injEq] at h
        subst h
        rcases List.mem_cons.mp hc with h2 | h2
        · exact ⟨k', by simp, h2 ▸ h1⟩
        · obtain ⟨k, hk, hkc⟩ := ih cs hg c h2
          exact ⟨k, by simp [hk], hkc⟩

theorem getCols_mem_of (t : Table) (keys : List String) (cols : List Col)
    (h : getCols t keys = .ok cols) (k : String) (c : Col)
    (hk : k ∈ keys) (hc : getCol t k = some c) : c ∈ cols := by
  induction keys generalizing cols with
  | nil => simp at hk
  | cons k' ks ih =>
    unfold getCols at h
    rcases h1 : getCol t k' with _ | c'
    · rw [h1] at h; simp at h
    · rw [h1] at h
      rcases hg : getCols t ks with e | cs
      · rw [hg] at h; simp at h
      · rw [hg] at h
        simp only [Except.ok.injEq] at h
        subst h
        rcases List.mem_cons.mp hk with h2 | h2
        · subst h2
          rw [hc] at h1
          simp at h1
          simp [h1]
        · simp [ih cs hg h2]

theorem getCols_error_of_missing (t : Table) (keys : List String) (k : String)
    (hk : k ∈ keys) (hmiss : getCol t k = none) : ∃ e, getCols t keys = .error e := by
  induction keys with
  | nil => simp at hk
  | cons k' ks ih =>
    rcases h1 : getCol t k' with _ | c'
    · exact ⟨"KeyError: " ++ k', by simp [getCols, h1]⟩
    · have h2 : k ∈ ks := by
        rcases List.mem_cons.mp hk with h3 | h3
        · subst h3; rw [hmiss] at h1; simp at h1
        · exact h3
      obtain ⟨e, he⟩ := ih h2
      exact ⟨e, by simp [getCols, h1, he]⟩

/-! ### Lemmas about the median and per-column imputation -/

theorem length_insertSorted (x : ℚ) (l : List ℚ) :
    (insertSorted x l).length = l.length + 1 := by
  induction l with
  | nil => rfl
  | cons y ys ih =>
    unfold insertSorted
    by_cases h : x ≤ y
    · simp [h]
    · simp [h, ih]

theorem length_sortList (l : List ℚ) : (sortList l).length = l.length := by
  induction l with
  | nil => rfl
  | cons x xs ih =>
    unfold sortList at ih ⊢
    simp [List.foldr_cons, length_insertSorted, ih]

theorem median_nil : median [] = none := rfl

theorem median_isSome (l : List ℚ) (h : l ≠ []) : ∃ m, median l = some m := by
  have hlen : (sortList l).length = l.length := length_sortList l
  have hpos : 0 < (sortList l).length := by
    rw [hlen]
    exact List.length_pos.mpr h
  unfold median
  rw [if_neg (Nat.pos_iff_ne_zero.mp hpos)]
  by_cases hodd : (sortList l).length % 2 = 1
  · rw [if_pos hodd]
    rcases hsome : (sortList l)[(sortList l).length / 2]? with _ | m
    · have := List.getElem?_eq_none_iff.mp hsome
      have h2 : (sortList l).length / 2 < (sortList l).length := Nat.div_lt_self hpos (by omega)
      omega
    · exact ⟨m, rfl⟩
  · rw [if_neg hodd]
    have h2 : (sortList l).length / 2 < (sortList l).length := Nat.div_lt_self hpos (by omega)
    have h3 : (sortList l).length / 2 - 1 < (sortList l).length := by omega
    rcases hs1 : (sortList l)[(sortList l).length / 2 - 1]? with _ | a
    · have := List.getElem?_eq_none_iff.mp hs1
      omega
    · rcases hs2 : (sortList l)[(sortList l).length / 2]? with _ | b
      · have := List.getElem?_eq_none_iff.mp hs2
        omega
      · exact ⟨(a + b) / 2, rfl⟩

theorem median_eq_none_iff (l : List ℚ) : median l = none ↔ l = [] := by
  constructor
  · intro h
    by_contra hne
    obtain ⟨m, hm⟩ := median_isSome l hne
    rw [hm] at h
    simp at h
  · intro h
    subst h
    rfl

theorem somes_eq_nil_iff (c : Col) : somes c = [] ↔ ∀ cell ∈ c, cell = none := by
  unfold somes
  rw [List.filterMap_eq_nil_iff]
  simp

theorem imputeCol_of_median_none (c : Col) (h : median (somes c) = none) :
    imputeCol c = c := by
  unfold imputeCol
  rw [h]

theorem imputeCol_of_median_some (c : Col) (m : ℚ) (h : median (somes c) = some m) :
    imputeCol c = c.map (fun cell => some (cell.getD m)) := by
  unfold imputeCol
  rw [h]

theorem imputeCol_length (c : Col) : (imputeCol c).length = c.length := by
  unfold imputeCol
  rcases median (somes c) with _ | m
  · rfl
  · simp

theorem map_clipCell_of_all_none (c : Col) (h : ∀ cell ∈ c, cell = none) :
    c.map clipCell = c := by
  induction c with
  | nil => rfl
  | cons cell cs ih =>
    have h1 : cell = none := h cell (by simp)
    subst h1
    have h2 : List.map clipCell cs = cs := ih (fun x hx => h x (by simp [hx]))
    simp [clipCell, h2]

theorem map_impute_of_all_some (c : Col) (m : ℚ) (h : ∀ cell ∈ c, cell.isSome) :
    c.map (fun cell => some (cell.getD m)) = c := by
  induction c with
  | nil => rfl
  | cons cell cs ih =>
    have h1 : cell.isSome := h cell (by simp)
    rcases cell with _ | x
    · simp at h1
    · have h2 : List.map (fun cell => some (cell.getD m)) cs = cs :=
        ih (fun y hy => h y (by simp [hy]))
      simp [h2]

/-! ### Lemmas about the imputation loop -/

theorem imputeKeys_nil (t : Table) : imputeKeys t [] = t := rfl

theorem imputeKeys_cons (t : Table) (k : String) (ks : List String) :
    imputeKeys t (k :: ks) =
      imputeKeys (mapCols (fun n c => if n == k then imputeCol c else c) t) ks := rfl

theorem mem_mapCols (f : String → Col → Col) (t : Table) (p' : String × Col)
    (h : p' ∈ mapCols f t) : ∃ p ∈ t, p' = (p.1, f p.1 p.2) := by
  unfold mapCols at h
  obtain ⟨p, hp, he⟩ := List.mem_map.mp h
  exact ⟨p, hp, he.symm⟩

theorem mapCols_id (t : Table) : mapCols (fun _ c => c) t = t := by
  induction t with
  | nil => rfl
  | cons p t ih => simp [mapCols_cons, ih]

theorem getCol_imputeKeys_not_mem (t : Table) (keys : List String) (k : String)
    (hk : k ∉ keys) : getCol (imputeKeys t keys) k = getCol t k := by
  induction keys generalizing t with
  | nil => rfl
  | cons k' ks ih =>
    rw [imputeKeys_cons, ih _ (fun h => hk (List.mem_cons_of_mem _ h)), getCol_mapCols]
    have hne : ¬(k = k') := fun h => hk (h ▸ List.mem_cons_self _ _)
    cases getCol t k <;> simp [hne]

theorem getCol_imputeKeys_isSome (t : Table) (keys : List String) (k : String) :
    (getCol (imputeKeys t keys) k).isSome = (getCol t k).isSome := by
  induction keys generalizing t with
  | nil => rfl
  | cons k' ks ih =>
    rw [imputeKeys_cons, ih, getCol_mapCols]
    cases getCol t k <;> rfl

theorem getCol_imputeKeys_nodup (t : Table) (keys : List String) (hnd : keys.Nodup)
    (k : String) (hk : k ∈ keys) :
    getCol (imputeKeys t keys) k = (getCol t k).map imputeCol := by
  induction keys generalizing t with
  | nil => simp at hk
  | cons k' ks ih =>
    obtain ⟨hk1, hk2⟩ := List.nodup_cons.mp hnd
    rw [imputeKeys_cons]
    rcases List.mem_cons.mp hk with h1 | h1
    · subst h1
      rw [getCol_imputeKeys_not_mem _ _ _ hk1, getCol_mapCols]
      cases getCol t k <;> simp
    · have hne : ¬(k = k') := fun he => hk1 (he ▸ h1)
      rw [ih _ hk2 h1, getCol_mapCols]
      cases getCol t k <;> simp [hne]

theorem imputeKeys_eq_mapCols (t : Table) (keys : List String) (hnd : keys.Nodup) :
    imputeKeys t keys = mapCols (fun n c => if n ∈ keys then imputeCol c else c) t := by
  induction keys generalizing t with
  | nil =>
    rw [imputeKeys_nil]
    have : mapCols (fun n c => if n ∈ ([] : List String) then imputeCol c else c) t
        = mapCols (fun _ c => c) t := mapCols_congr _ _ t (fun n c => by simp)
    rw [this, mapCols_id]
  | cons k' ks ih =>
    obtain ⟨hk1, hk2⟩ := List.nodup_cons.mp hnd
    rw [imputeKeys_cons, ih _ hk2, mapCols_mapCols]
    apply mapCols_congr
    intro n c
    by_cases h1 : n = k'
    · subst h1
      simp [hk1]
    · by_cases h2 : n ∈ ks <;> simp [h1, h2]

theorem mem_imputeKeys (t : Table) (keys : List String) :
    ∀ p' ∈ imputeKeys t keys, ∃ p, p ∈ t ∧ p'.1 = p.1 ∧ p'.2.length = p.2.length := by
  induction keys generalizing t with
  | nil => exact fun p' h => ⟨p', h, rfl, rfl⟩
  | cons k' ks ih =>
    intro p' h
    rw [imputeKeys_cons] at h
    obtain ⟨p1, hp1, hname, hlen⟩ := ih _ p' h
    obtain ⟨p, hp, hpe⟩ := mem_mapCols _ _ _ hp1
    refine ⟨p, hp, ?_, ?_⟩
    · rw [hname, hpe]
    · rw [hlen, hpe]
      by_cases hc : p.1 == k' <;> simp [hc, imputeCol_length]

/-! ### Structure of a successful cleaning run -/

theorem cleanBody_eq (t : Table) (keys : List String) (hnd : keys.Nodup) :
    cleanBody t keys = mapCols (cleanColFun keys) (dropComments t) := by
  unfold cleanBody clipKeys
  rw [imputeKeys_eq_mapCols t keys hnd, dropComments_mapCols, mapCols_mapCols]
  apply mapCols_congr
  intro n c
  by_cases h : n ∈ keys <;> simp [cleanColFun, h]

theorem detect_outliers_of_ok (t : Table) (keys : List String) (cols : List Col)
    (h : getCols t keys = .ok cols) :
    detect_outliers t keys =
      .ok ((List.range ((cols.head?.map List.length).getD 0)).filter
        (fun i => cols.any (fun c => cellOutlier c (c.getD i none)))) := by
  unfold detect_outliers
  rw [h]

theorem detect_outliers_of_error (t : Table) (keys : List String) (e : String)
    (h : getCols t keys = .error e) : detect_outliers t keys = .error e := by
  unfold detect_outliers
  rw [h]

theorem clean_ok_elim (t : Table) (keys : List String) (t' : Table)
    (h : clean t keys = .ok t') :
    t' = cleanBody t keys ∧ (∃ cols, getCols t keys = .ok cols) ∧
      ∃ cols2, getCols (dropComments (imputeKeys t keys)) keys = .ok cols2 := by
  unfold clean at h
  rcases h1 : getCols t keys with e | cols
  · rw [detect_outliers_of_error t keys e h1] at h
    simp at h
  · rw [detect_outliers_of_ok t keys cols h1] at h
    rcases h2 : getCols (dropComments (imputeKeys t keys)) keys with e | cols2
    · rw [h2] at h
      simp at h
    · rw [h2] at h
      simp only [Except.ok.injEq] at h
      exact ⟨h.symm, ⟨cols, rfl⟩, ⟨cols2, rfl⟩⟩

theorem clean_ok_of (t : Table) (keys : List String) (cols cols2 : List Col)
    (h1 : getCols t keys = .ok cols)
    (h2 : getCols (dropComments (imputeKeys t keys)) keys = .ok cols2) :
    clean t keys = .ok (cleanBody t keys) := by
  unfold clean
  rw [detect_outliers_of_ok t keys cols h1, h2]

theorem clean_ok_key_ne_comments (t : Table) (keys : List String) (t' : Table)
    (h : clean t keys = .ok t') (k : String) (hk : k ∈ keys) : k ≠ "Comments" := by
  obtain ⟨-, -, cols2, h2⟩ := clean_ok_elim t keys t' h
  obtain ⟨c2, hc2⟩ := getCols_ok_forall _ _ _ h2 k hk
  intro he
  subst he
  rw [getCol_dropComments_self] at hc2
  simp at hc2

theorem clean_ok_key_col (t : Table) (keys : List String) (t' : Table)
    (h : clean t keys = .ok t') (k : String) (hk : k ∈ keys) :
    ∃ c, getCol t k = some c := by
  obtain ⟨-, -, cols2, h2⟩ := clean_ok_elim t keys t' h
  obtain ⟨c2, hc2⟩ := getCols_ok_forall _ _ _ h2 k hk
  have hne : k ≠ "Comments" := clean_ok_key_ne_comments t keys t' h k hk
  rw [getCol_dropComments _ _ hne] at hc2
  have hs : (getCol (imputeKeys t keys) k).isSome = (getCol t k).isSome :=
    getCol_imputeKeys_isSome t keys k
  rw [hc2] at hs
  rcases hg : getCol t k with _ | c
  · rw [hg] at hs
    simp at hs
  · exact ⟨c, rfl⟩

/-! ### Idempotence of the per-column cleaning -/

theorem clipCell_clipCell (cell : Cell) : clipCell (clipCell cell) = clipCell cell := by
  rcases cell with _ | x
  · rfl
  · simp [clipCell, max_assoc]

theorem map_clipCell_map_clipCell (c : Col) :
    (c.map clipCell).map clipCell = c.map clipCell := by
  rw [List.map_map]
  exact List.map_congr_left (fun cell _ => clipCell_clipCell cell)

theorem somes_ne_nil_of_all_some (c : Col) (hc : c ≠ [])
    (h : ∀ cell ∈ c, cell.isSome) : somes c ≠ [] := by
  rcases c with _ | ⟨cell, cs⟩
  · exact absurd rfl hc
  · have h1 : cell.isSome := h cell (by simp)
    rcases cell with _ | x
    · simp at h1
    · simp [somes]

theorem cleanCol_idem (c : Col) :
    (imputeCol ((imputeCol c).map clipCell)).map clipCell = (imputeCol c).map clipCell := by
  rcases hm : median (somes c) with _ | m
  · have hnil : somes c = [] := (median_eq_none_iff _).mp hm
    have hall : ∀ cell ∈ c, cell = none := (somes_eq_nil_iff c).mp hnil
    rw [imputeCol_of_median_none c hm, map_clipCell_of_all_none c hall,
      imputeCol_of_median_none c hm, map_clipCell_of_all_none c hall]
  · rw [imputeCol_of_median_some c m hm]
    by_cases hc : c = []
    · subst hc
      simp [imputeCol, somes, median, sortList]
    · have hsome : ∀ cell ∈ (c.map (fun cell => some (cell.getD m))).map clipCell,
          cell.isSome := by
        intro cell hcell
        rw [List.map_map] at hcell
        obtain ⟨y, hy, he⟩ := List.mem_map.mp hcell
        rw [← he]
        simp [clipCell]
      have hnil2 : (c.map (fun cell => some (cell.getD m))).map clipCell ≠ [] := by
        simp [hc]
      obtain ⟨m2, hm2⟩ :=
        median_isSome (somes ((c.map (fun cell => some (cell.getD m))).map clipCell))
          (somes_ne_nil_of_all_some _ hnil2 hsome)
      rw [imputeCol_of_median_some _ m2 hm2, map_impute_of_all_some _ m2 hsome,
        map_clipCell_map_clipCell]

/-! ### Remaining shape helpers -/

theorem colNames_imputeKeys (t : Table) (keys : List String) :
    colNames (imputeKeys t keys) = colNames t := by
  induction keys generalizing t with
  | nil => rfl
  | cons k' ks ih =>
    rw [imputeKeys_cons, ih, colNames_mapCols]

theorem mem_cleanBody (t : Table) (keys : List String) :
    ∀ p' ∈ cleanBody t keys, ∃ p, p ∈ t ∧ p'.1 = p.1 ∧ p'.2.length = p.2.length := by
  intro p' h
  unfold cleanBody clipKeys at h
  obtain ⟨p1, hp1, hpe⟩ := mem_mapCols _ _ _ h
  have hm : p1 ∈ imputeKeys t keys := by
    unfold dropComments at hp1
    exact List.mem_of_mem_filter hp1
  obtain ⟨p, hp, h1, h2⟩ := mem_imputeKeys t keys p1 hm
  refine ⟨p, hp, ?_, ?_⟩
  · rw [hpe]
    exact h1
  · rw [hpe]
    by_cases hx : p1.1 ∈ keys <;> simp [hx, h2]

/-- C1: for every input table on which `clean` succeeds and in which each key
column has at least one non-missing value, no key column of the output
contains a missing entry (each hole was filled with the column median). -/
theorem clean_no_missing_in_key_cols (t : Table) (keys : List String) (t' : Table)
    (hnd : keys.Nodup) (h : clean t keys = .ok t')
    (hne : ∀ k ∈ keys, colHasValue t k = true) :
    ∀ k ∈ keys, ∃ c', getCol t' k = some c' ∧ ∀ cell ∈ c', cell ≠ none := by
  intro k hk
  obtain ⟨c, hc⟩ := clean_ok_key_col t keys t' h k hk
  have hkne := clean_ok_key_ne_comments t keys t' h k hk
  obtain ⟨ht', -, -⟩ := clean_ok_elim t keys t' h
  have hbody : t' = mapCols (cleanColFun keys) (dropComments t) :=
    ht'.trans (cleanBody_eq t keys hnd)
  rw [hbody, getCol_mapCols, getCol_dropComments _ _ hkne, hc]
  refine ⟨cleanColFun keys k c, rfl, ?_⟩
  have hsomes : somes c ≠ [] := by
    have := hne k hk
    unfold colHasValue at this
    rw [hc] at this
    simpa using this
  obtain ⟨m, hm⟩ := median_isSome (somes c) hsomes
  unfold cleanColFun
  rw [if_pos hk, imputeCol_of_median_some c m hm]
  intro cell hcell
  rw [List.map_map] at hcell
  obtain ⟨y, hy, he⟩ := List.mem_map.mp hcell
  rw [← he]
  simp [clipCell]

/-- C2: after a successful `clean` every value in every key column is
nonnegative, and the clipping step sends a negative value to zero and keeps
a nonnegative value unchanged. -/
theorem clean_key_cols_nonneg (t : Table) (keys : List String) (t' : Table)
    (h : clean t keys = .ok t') :
    (∀ k ∈ keys, ∀ c', getCol t' k = some c' → ∀ x : ℚ, some x ∈ c' → 0 ≤ x) ∧
      ∀ x : ℚ, (x < 0 → clipCell (some x) = some 0) ∧
        (0 ≤ x → clipCell (some x) = some x) := by
  obtain ⟨ht', -, -⟩ := clean_ok_elim t keys t' h
  constructor
  · intro k hk c' hc' x hx
    rw [ht'] at hc'
    unfold cleanBody clipKeys at hc'
    rw [getCol_mapCols] at hc'
    rcases hg : getCol (dropComments (imputeKeys t keys)) k with _ | c
    · rw [hg] at hc'
      simp at hc'
    · rw [hg] at hc'
      simp only [Option.map_some', Option.some.injEq] at hc'
      rw [← hc', if_pos hk] at hx
      obtain ⟨cell, hcm, he⟩ := List.mem_map.mp hx
      rcases cell with _ | y
      · simp [clipCell] at he
      · simp [clipCell] at he
        rw [← he]
        exact le_max_right y 0
  · intro x
    constructor
    · intro hx
      simp [clipCell, max_eq_right hx.le]
    · intro hx
      simp [clipCell, max_eq_left hx]

/-- C5: the value imputed into a key column is the median of that column as
it stands in the input table — one column imputation never changes the
median another column uses. -/
theorem impute_uses_own_median (t : Table) (keys : List String) (hnd : keys.Nodup)
    (k : String) (hk : k ∈ keys) (c : Col) (hc : getCol t k = some c)
    (hne : somes c ≠ []) :
    ∃ m, median (somes c) = some m ∧
      getCol (imputeKeys t keys) k = some (c.map (fun cell => some (cell.getD m))) := by
  obtain ⟨m, hm⟩ := median_isSome (somes c) hne
  refine ⟨m, hm, ?_⟩
  rw [getCol_imputeKeys_nodup t keys hnd k hk, hc]
  simp [imputeCol_of_median_some c m hm]

/-- C7: when a key column is absent from the input table, `clean` fails with
an error and produces no output table. -/
theorem clean_missing_key_fails (t : Table) (keys : List String) (k : String)
    (hk : k ∈ keys) (hmiss : getCol t k = none) :
    (∃ e, clean t keys = .error e) ∧ ∀ t', clean t keys ≠ .ok t' := by
  obtain ⟨e, he⟩ := getCols_error_of_missing t keys k hk hmiss
  have hclean : clean t keys = .error e := by
    unfold clean
    rw [detect_outliers_of_error t keys e he]
  refine ⟨⟨e, hclean⟩, fun t' hok => ?_⟩
  rw [hclean] at hok
  simp at hok

/-- C8: a successful `clean` removes the optional `Comments` column when it
is present; when it is absent the drop step changes nothing (it never
fails), so the column set is exactly the input columns minus `Comments`. -/
theorem clean_drops_comments (t : Table) (keys : List String) (t' : Table)
    (h : clean t keys = .ok t') :
    getCol t' "Comments" = none ∧
      colNames t' = (colNames t).filter (fun nm => nm != "Comments") ∧
      (getCol t "Comments" = none → colNames t' = colNames t) := by
  obtain ⟨ht', -, -⟩ := clean_ok_elim t keys t' h
  subst ht'
  have hnames : colNames (cleanBody t keys) =
      (colNames t).filter (fun nm => nm != "Comments") := by
    unfold cleanBody clipKeys
    rw [colNames_mapCols, colNames_dropComments, colNames_imputeKeys]
  refine ⟨?_, hnames, ?_⟩
  · unfold cleanBody clipKeys
    rw [getCol_mapCols, getCol_dropComments_self]
    rfl
  · intro hnone
    rw [hnames]
    apply List.filter_eq_self.mpr
    intro nm hnm
    obtain ⟨p, hp, hpe⟩ := List.mem_map.mp hnm
    have hfind : t.find? (fun q => q.1 == "Comments") = none := by
      unfold getCol at hnone
      exact Option.map_eq_none.mp hnone
    have := List.find?_eq_none.mp hfind p hp
    rw [← hpe]
    simpa using this

/-- C10: a key column that is entirely missing survives `clean` untouched —
the median of no values is missing, `fillna` changes nothing, clipping
keeps missing entries missing — so `clean` still succeeds but the
no-missing-values postcondition fails for that column. -/
theorem clean_all_missing_column (t : Table) (keys : List String) (hnd : keys.Nodup)
    (hC : "Comments" ∉ keys) (hall : ∀ k ∈ keys, (getCol t k).isSome)
    (k : String) (hk : k ∈ keys) (c : Col) (hc : getCol t k = some c)
    (hnone : ∀ cell ∈ c, cell = none) :
    ∃ t', clean t keys = .ok t' ∧ median (somes c) = none ∧ getCol t' k = some c := by
  have hsomes : somes c = [] := (somes_eq_nil_iff c).mpr hnone
  have hmed : median (somes c) = none := by
    rw [hsomes]
    rfl
  obtain ⟨cols, h1⟩ := getCols_ok_of_forall t keys hall
  have hall2 : ∀ k2 ∈ keys, (getCol (dropComments (imputeKeys t keys)) k2).isSome := by
    intro k2 hk2
    have hne2 : k2 ≠ "Comments" := fun he => hC (he ▸ hk2)
    rw [getCol_dropComments _ _ hne2, getCol_imputeKeys_isSome]
    exact hall k2 hk2
  obtain ⟨cols2, h2⟩ := getCols_ok_of_forall _ keys hall2
  refine ⟨cleanBody t keys, clean_ok_of t keys cols cols2 h1 h2, hmed, ?_⟩
  have hne : k ≠ "Comments" := fun he => hC (he ▸ hk)
  rw [cleanBody_eq t keys hnd, getCol_mapCols, getCol_dropComments _ _ hne, hc]
  have hfun : cleanColFun keys k c = c := by
    unfold cleanColFun
    rw [if_pos hk, imputeCol_of_median_none c hmed, map_clipCell_of_all_none c hnone]
  simp [hfun]

/-- C3: a successful `clean` preserves the row count — every column of the
output has the input row count, and in particular every row index in the
outlier report is still a valid row of the cleaned table (outlier rows are
reported, never dropped). -/
theorem clean_preserves_rows (t : Table) (keys : List String) (t' : Table) (n : ℕ)
    (h : clean t keys = .ok t') (hrect : ∀ p ∈ t, p.2.length = n) :
    (∀ p ∈ t', p.2.length = n) ∧
      ∀ idxs, detect_outliers t keys = .ok idxs → ∀ i ∈ idxs, i < n := by
  obtain ⟨ht', ⟨cols, h1⟩, -⟩ := clean_ok_elim t keys t' h
  constructor
  · intro p hp
    rw [ht'] at hp
    obtain ⟨p0, hp0, -, hlen⟩ := mem_cleanBody t keys p hp
    rw [hlen]
    exact hrect p0 hp0
  · intro idxs hd i hi
    rw [detect_outliers_of_ok t keys cols h1] at hd
    simp only [Except.ok.injEq] at hd
    subst hd
    obtain ⟨hir, -⟩ := List.mem_filter.mp hi
    have hir2 := List.mem_range.mp hir
    rcases hcols : cols with _ | ⟨c0, cs⟩
    · rw [hcols] at hir2
      simp at hir2
    · obtain ⟨k, hk, hkc⟩ := mem_of_getCols t keys cols h1 c0 (by rw [hcols]; simp)
      have hc0 : c0.length = n := hrect _ (getCol_mem t k c0 hkc)
      rw [hcols] at hir2
      simp [hc0] at hir2
      exact hir2

/-- C4: the outlier report is exactly the set of row indices holding, in at
least one key column, a non-missing value whose squared deviation from the
column mean exceeds nine times the column variance (the `|zscore| > 3` test
over the non-missing entries); missing entries are never flagged, and the
result is one union over the key columns. -/
theorem detect_outliers_spec (t : Table) (keys : List String) (cols : List Col) (n : ℕ)
    (hg : getCols t keys = .ok cols) (hrect : ∀ p ∈ t, p.2.length = n) (i : ℕ) :
    ∃ idxs, detect_outliers t keys = .ok idxs ∧
      (i ∈ idxs ↔ i < n ∧ ∃ k ∈ keys, ∃ c, getCol t k = some c ∧
        ∃ x, c.getD i none = some x ∧ (x - colMean c) ^ 2 > 9 * colVar c) := by
  refine ⟨_, detect_outliers_of_ok t keys cols hg, ?_⟩
  constructor
  · intro hi
    obtain ⟨hir, hany⟩ := List.mem_filter.mp hi
    have hir2 := List.mem_range.mp hir
    obtain ⟨c, hcmem, hcell⟩ := List.any_eq_true.mp hany
    obtain ⟨k, hk, hkc⟩ := mem_of_getCols t keys cols hg c hcmem
    rcases hcols : cols with _ | ⟨c0, cs⟩
    · rw [hcols] at hcmem
      simp at hcmem
    · obtain ⟨k0, hk0, hk0c⟩ := mem_of_getCols t keys cols hg c0 (by rw [hcols]; simp)
      have hc0 : c0.length = n := hrect _ (getCol_mem t k0 c0 hk0c)
      rw [hcols] at hir2
      simp [hc0] at hir2
      refine ⟨hir2, k, hk, c, hkc, ?_⟩
      rcases hcd : c.getD i none with _ | x
      · rw [hcd] at hcell
        simp [cellOutlier] at hcell
      · rw [hcd] at hcell
        exact ⟨x, rfl, of_decide_eq_true hcell⟩
  · rintro ⟨hin, k, hk, c, hkc, x, hx, hineq⟩
    have hcmem : c ∈ cols := getCols_mem_of t keys cols hg k c hk hkc
    apply List.mem_filter.mpr
    refine ⟨?_, ?_⟩
    · apply List.mem_range.mpr
      rcases hcols : cols with _ | ⟨c0, cs⟩
      · rw [hcols] at hcmem
        simp at hcmem
      · obtain ⟨k0, hk0, hk0c⟩ := mem_of_getCols t keys cols hg c0 (by rw [hcols]; simp)
        have hc0 : c0.length = n := hrect _ (getCol_mem t k0 c0 hk0c)
        simpa [hc0] using hin
    · apply List.any_eq_true.mpr
      refine ⟨c, hcmem, ?_⟩
      rw [hx]
      exact decide_eq_true hineq

/-- C9: a successful `clean` keeps the input schema minus `Comments`, keeps
every non-key column value untouched, keeps each column at the input row
count, and the export consists of the header row (the column names) plus
one record per row with no extra index entry. -/
theorem clean_frame_effect (t : Table) (keys : List String) (t' : Table)
    (h : clean t keys = .ok t') :
    colNames t' = (colNames t).filter (fun nm => nm != "Comments") ∧
      (∀ nm, nm ∉ keys → nm ≠ "Comments" → getCol t' nm = getCol t nm) ∧
      (∀ p' ∈ t', ∃ p, p ∈ t ∧ p'.1 = p.1 ∧ p'.2.length = p.2.length) ∧
      (exportCsv t').1 = colNames t' ∧
      (exportCsv t').2.length = nrows t' ∧
      ∀ r ∈ (exportCsv t').2, r.length = (colNames t').length := by
  obtain ⟨ht', -, -⟩ := clean_ok_elim t keys t' h
  subst ht'
  refine ⟨?_, ?_, mem_cleanBody t keys, rfl, ?_, ?_⟩
  · unfold cleanBody clipKeys
    rw [colNames_mapCols, colNames_dropComments, colNames_imputeKeys]
  · intro nm h1 h2
    unfold cleanBody clipKeys
    rw [getCol_mapCols, getCol_dropComments _ _ h2, getCol_imputeKeys_not_mem t keys nm h1]
    cases getCol t nm <;> simp [h1]
  · simp [exportCsv]
  · intro r hr
    simp only [exportCsv] at hr
    obtain ⟨i, hi, he⟩ := List.mem_map.mp hr
    rw [← he]
    simp [rowAt, colNames]

/-- C6: `clean` is idempotent — running it again on its own output changes
nothing: there is nothing left to impute, nothing to clip, no `Comments`
column left to drop. -/
theorem clean_idempotent (t : Table) (keys : List String) (t' : Table)
    (hnd : keys.Nodup) (h : clean t keys = .ok t') : clean t' keys = .ok t' := by
  obtain ⟨ht', ⟨cols, h1⟩, ⟨cols2, h2⟩⟩ := clean_ok_elim t keys t' h
  have hbody : t' = mapCols (cleanColFun keys) (dropComments t) :=
    ht'.trans (cleanBody_eq t keys hnd)
  have hkeys : ∀ k ∈ keys, (getCol t' k).isSome := by
    intro k hk
    have hne := clean_ok_key_ne_comments t keys t' h k hk
    obtain ⟨c, hc⟩ := clean_ok_key_col t keys t' h k hk
    rw [hbody, getCol_mapCols, getCol_dropComments _ _ hne, hc]
    rfl
  obtain ⟨colsA, hA⟩ := getCols_ok_of_forall t' keys hkeys
  have hdrop : dropComments t' = t' := by
    rw [hbody, dropComments_mapCols, dropComments_dropComments]
  have hbody2 : cleanBody t' keys = t' := by
    rw [cleanBody_eq t' keys hnd, hdrop, hbody, mapCols_mapCols]
    apply mapCols_congr
    intro nm c
    unfold cleanColFun
    by_cases hn : nm ∈ keys
    · simp only [if_pos hn]
      exact cleanCol_idem c
    · simp [hn]
  have himp : ∀ k ∈ keys, (getCol (dropComments (imputeKeys t' keys)) k).isSome := by
    intro k hk
    have hne := clean_ok_key_ne_comments t keys t' h k hk
    rw [getCol_dropComments _ _ hne, getCol_imputeKeys_isSome]
    exact hkeys k hk
  obtain ⟨colsB, hB⟩ := getCols_ok_of_forall _ keys himp
  have hfinal := clean_ok_of t' keys colsA colsB hA hB
  rw [hbody2] at hfinal
  exact hfinal

/-! ### Concrete witnesses -/

/-- Witness for C1 at `sampleT`, read off at the `GHI` column. -/
theorem clean_no_missing_in_key_cols_witness :
    ∃ c', getCol sampleTClean "GHI" = some c' ∧ ∀ cell ∈ c', cell ≠ none :=
  clean_no_missing_in_key_cols sampleT keyColumns sampleTClean (by decide) rfl (by decide)
    "GHI" (by decide)

/-- Witness for C2 at `sampleT`. -/
theorem clean_key_cols_nonneg_witness :
    (∀ k ∈ keyColumns, ∀ c', getCol sampleTClean k = some c' →
      ∀ x : ℚ, some x ∈ c' → 0 ≤ x) ∧
      ∀ x : ℚ, (x < 0 → clipCell (some x) = some 0) ∧
        (0 ≤ x → clipCell (some x) = some x) :=
  clean_key_cols_nonneg sampleT keyColumns sampleTClean rfl

/-- Witness for C3 at `sampleT` (three rows). -/
theorem clean_preserves_rows_witness :
    (∀ p ∈ sampleTClean, p.2.length = 3) ∧
      ∀ idxs, detect_outliers sampleT keyColumns = .ok idxs → ∀ i ∈ idxs, i < 3 :=
  clean_preserves_rows sampleT keyColumns sampleTClean 3 rfl (by decide)

/-- Witness for C4 at `sampleT`, row index 0. -/
theorem detect_outliers_spec_witness :
    ∃ idxs, detect_outliers sampleT keyColumns = .ok idxs ∧
      (0 ∈ idxs ↔ 0 < 3 ∧ ∃ k ∈ keyColumns, ∃ c, getCol sampleT k = some c ∧
        ∃ x, c.getD 0 none = some x ∧ (x - colMean c) ^ 2 > 9 * colVar c) :=
  detect_outliers_spec sampleT keyColumns sampleTCols 3 rfl (by decide) 0

/-- Witness for C5 at the specification example `[1, 2, missing, 100]`:
the median of the non-missing values is 2 and the hole is filled with 2. -/
theorem impute_uses_own_median_witness :
    ∃ m, median (somes [some 1, some 2, none, some 100]) = some m ∧
      getCol (imputeKeys exampleT keyColumns) "GHI" =
        some ([some 1, some 2, none, some 100].map (fun cell => some (cell.getD m))) :=
  impute_uses_own_median exampleT keyColumns (by decide) "GHI" (by decide)
    [some 1, some 2, none, some 100] rfl (by decide)

/-- Witness for C6 at `sampleT`. -/
theorem clean_idempotent_witness :
    clean sampleTClean keyColumns = .ok sampleTClean :=
  clean_idempotent sampleT keyColumns sampleTClean (by decide) rfl

/-- Witness for C7 at a table with no `GHI` column. -/
theorem clean_missing_key_fails_witness :
    (∃ e, clean missingKeyT keyColumns = .error e) ∧
      ∀ t', clean missingKeyT keyColumns ≠ .ok t' :=
  clean_missing_key_fails missingKeyT keyColumns "GHI" (by decide) rfl

/-- Witness for C8 at `sampleT`. -/
theorem clean_drops_comments_witness :
    getCol sampleTClean "Comments" = none ∧
      colNames sampleTClean = (colNames sampleT).filter (fun nm => nm != "Comments") ∧
      (getCol sampleT "Comments" = none → colNames sampleTClean = colNames sampleT) :=
  clean_drops_comments sampleT keyColumns sampleTClean rfl

/-- Witness for C9 at `sampleT`. -/
theorem clean_frame_effect_witness :
    colNames sampleTClean = (colNames sampleT).filter (fun nm => nm != "Comments") ∧
      (∀ nm, nm ∉ keyColumns → nm ≠ "Comments" →
        getCol sampleTClean nm = getCol sampleT nm) ∧
      (∀ p' ∈ sampleTClean, ∃ p, p ∈ sampleT ∧ p'.1 = p.1 ∧ p'.2.length = p.2.length) ∧
      (exportCsv sampleTClean).1 = colNames sampleTClean ∧
      (exportCsv sampleTClean).2.length = nrows sampleTClean ∧
      ∀ r ∈ (exportCsv sampleTClean).2, r.length = (colNames sampleTClean).length :=
  clean_frame_effect sampleT keyColumns sampleTClean rfl

/-- Witness for C10 at `allMissingT` (its `GHI` column is all missing). -/
theorem clean_all_missing_column_witness :
    ∃ t', clean allMissingT keyColumns = .ok t' ∧
      median (somes [none, none]) = none ∧ getCol t' "GHI" = some [none, none] :=
  clean_all_missing_column allMissingT keyColumns (by decide) (by decide) (by decide)
    "GHI" (by decide) [none, none] rfl (by decide)
